import Mathlib

/-
  Verification development for the TypeORM metadata-resolution and value-codec
  core (PostgresDriver value codec and EntityMetadataBuilder resolution
  passes).  The definitions below are a shallow embedding of the TypeScript
  source in src/driver/postgres/PostgresDriver.ts; JavaScript runtime values
  are modelled by the inductive type `Value`, JavaScript numbers are
  restricted to integers (floating point is out of scope for the codec
  fragments verified here), and strings are processed as lists of characters.
  External collaborator modules that are not part of the source tree
  (DateUtils, ApplyValueTransformers, the metadata-args storage and the
  metadata constructors) are modelled from the specification and are marked
  as such in their doc comments.
-/

namespace TypeormSpec

/-- Model of a JavaScript runtime value as used by the Postgres value codec.
Numbers are restricted to integers; `vNaN` models the NaN number. Objects are
modelled as ordered association lists of string keys. -/
inductive Value where
  | vNull
  | vUndefined
  | vNaN
  | vBool (b : Bool)
  | vInt (n : Int)
  | vStr (s : String)
  | vArr (elems : List Value)
  | vMap (entries : List (String × Value))
deriving Repr

/-- A value is absent when it is JavaScript null or undefined
(the check `value === null || value === undefined` in the source). -/
def Value.isAbsent : Value → Bool
  | .vNull => true
  | .vUndefined => true
  | _ => false

/-- JavaScript truthiness of a value (used by `value ? true : false`). -/
def truthy : Value → Bool
  | .vNull => false
  | .vUndefined => false
  | .vNaN => false
  | .vBool b => b
  | .vInt n => n != 0
  | .vStr s => s != ""
  | .vArr _ => true
  | .vMap _ => true

mutual

/-- JavaScript string conversion of a value, as performed by template
literals and string concatenation in the source. -/
def jsToString : Value → String
  | .vNull => "null"
  | .vUndefined => "undefined"
  | .vNaN => "NaN"
  | .vBool true => "true"
  | .vBool false => "false"
  | .vInt n => toString n
  | .vStr s => s
  | .vArr l => jsArrToString l
  | .vMap _ => "[object Object]"

/-- JavaScript Array toString: elements joined by commas. -/
def jsArrToString : List Value → String
  | [] => ""
  | [e] => jsElemToString e
  | e :: rest => jsElemToString e ++ "," ++ jsArrToString rest

/-- JavaScript Array join semantics for one element: null and undefined
become the empty string. -/
def jsElemToString : Value → String
  | .vNull => ""
  | .vUndefined => ""
  | .vNaN => "NaN"
  | .vBool b => jsToString (.vBool b)
  | .vInt n => jsToString (.vInt n)
  | .vStr s => s
  | .vArr l => jsArrToString l
  | .vMap m => jsToString (.vMap m)

end

/-! ### hstore encoding (PostgresDriver.preparePersistentValue, hstore branch) -/

/-- Insertion of a backslash before every double quote and backslash,
modelling the source replacement with the pattern that looks ahead for a
quote or backslash and inserts a backslash. -/
def escapeChars : List Char → List Char
  | [] => []
  | c :: rest =>
    if c = '"' ∨ c = '\\' then '\\' :: c :: escapeChars rest
    else c :: escapeChars rest

/-- Characters the JavaScript regex dot does not match (no dotall flag). -/
def isJsLineTerm (c : Char) : Bool :=
  c = '\n' ∨ c = '\r' ∨ c = ' ' ∨ c = ' '

/-- The hstore `quoteString` helper from the source: null and undefined
become the unquoted literal NULL, any other value is converted to a string
and double-quoted with quotes and backslashes escaped. -/
def hstoreQuoteString (v : Value) : List Char :=
  match v with
  | .vNull => ['N', 'U', 'L', 'L']
  | .vUndefined => ['N', 'U', 'L', 'L']
  | v => '"' :: (escapeChars (jsToString v).data ++ ['"'])

/-- JavaScript Array.prototype.join with a comma separator, at the level of
character lists. -/
def joinComma : List (List Char) → List Char
  | [] => []
  | [x] => x
  | x :: rest => x ++ ',' :: joinComma rest

/-- The entries of `Object.keys(value)` paired with the looked-up values:
objects yield their own entries, arrays yield index keys, primitives have no
enumerable keys. -/
def objectEntries : Value → List (String × Value)
  | .vMap m => m
  | .vArr l => l.enum.map (fun p => (toString p.1, p.2))
  | _ => []

/-- One encoded hstore entry: `quoteString(key) + "=>" + quoteString(value[key])`. -/
def hstoreEntryChars (kv : String × Value) : List Char :=
  hstoreQuoteString (.vStr kv.1) ++ '=' :: '>' :: hstoreQuoteString kv.2

/-- hstore encoding of a key-value map: the encoded entries joined by commas. -/
def hstoreEncodeEntries (entries : List (String × Value)) : List Char :=
  joinComma (entries.map hstoreEntryChars)

/-! ### hstore decoding (PostgresDriver.prepareHydratedValue, hstore branch)

The source extracts matches of the regex
`"([^"\\]*(?:\\.[^"\\]*)*)"=>(?:(NULL)|"([^"\\]*(?:\\.[^"\\]*)*)")(?:,|$)`
left to right.  `scanContent` models the greedy key/value content part
`[^"\\]*(?:\\.[^"\\]*)*` (a backslash pairs with any character the regex dot
matches; the match stops before the first unescaped quote), `matchEntryAt`
models one attempt of the whole regex anchored at the current position, and
`hstoreMatches` models the global scan that advances one character after a
failed attempt. -/

def scanContent : List Char → Option (List Char × List Char)
  | [] => some ([], [])
  | c :: rest =>
    if c = '"' then some ([], c :: rest)
    else if c = '\\' then
      match rest with
      | [] => none
      | d :: rest' =>
        if isJsLineTerm d then none
        else (scanContent rest').map (fun p => (c :: d :: p.1, p.2))
    else (scanContent rest).map (fun p => (c :: p.1, p.2))

theorem scanContent_length (cs : List Char) :
    ∀ m r, scanContent cs = some (m, r) → r.length ≤ cs.length := by
  induction cs using scanContent.induct with
  | case1 =>
    intro m r h
    rw [scanContent.eq_def] at h
    simp only [Option.some.injEq, Prod.mk.injEq] at h
    simp [← h.2]
  | case2 rest =>
    intro m r h
    rw [scanContent.eq_def] at h
    simp at h
    simp [← h.2]
  | case3 hb =>
    intro m r h
    rw [scanContent.eq_def] at h
    simp at h
  | case4 d rest hterm hb =>
    intro m r h
    rw [scanContent.eq_def] at h
    simp [hterm] at h
  | case5 d rest hterm hb ih =>
    intro m r h
    rw [scanContent.eq_def] at h
    simp [hterm, Option.map_eq_some'] at h
    obtain ⟨a, hsc, hm⟩ := h
    have := ih a r hsc
    simp only [List.length_cons]
    omega
  | case6 d rest hq hb ih =>
    intro m r h
    rw [scanContent.eq_def] at h
    simp [hq, hb, Option.map_eq_some'] at h
    obtain ⟨a, hsc, hm⟩ := h
    have := ih a r hsc
    simp only [List.length_cons]
    omega

/-- The trailing `(?:,|$)` part of the hstore entry regex: a comma is
consumed, the end of the string matches without consuming. -/
def matchTail : List Char → Option (List Char)
  | [] => some []
  | ',' :: rest => some rest
  | _ => none

theorem matchTail_length {cs r : List Char} (h : matchTail cs = some r) :
    r.length ≤ cs.length := by
  match cs with
  | [] => simp only [matchTail, Option.some.injEq] at h; simp [← h]
  | c :: rest =>
    by_cases hc : c = ','
    · subst hc
      simp only [matchTail, Option.some.injEq] at h
      simp [← h]
    · rw [show matchTail (c :: rest) = none by
        simp only [matchTail]; split <;> simp_all] at h
      simp at h

/-- One attempt of the whole hstore entry regex anchored at the head of the
character list: a quoted key, the arrow, then either the literal NULL or a
quoted value, then a comma or the end of input.  Returns the captured key
and value (`none` is the NULL capture) and the characters after the match. -/
def matchEntryAt (cs : List Char) : Option ((List Char × Option (List Char)) × List Char) :=
  match cs with
  | '"' :: cs1 =>
    match scanContent cs1 with
    | some (key, '"' :: '=' :: '>' :: cs2) =>
      match cs2 with
      | 'N' :: 'U' :: 'L' :: 'L' :: cs3 =>
        (matchTail cs3).map (fun r => ((key, none), r))
      | '"' :: cs3 =>
        match scanContent cs3 with
        | some (v, '"' :: cs4) => (matchTail cs4).map (fun r => ((key, some v), r))
        | _ => none
      | _ => none
    | _ => none
  | _ => none

theorem matchEntryAt_length {cs : List Char} {kv : List Char × Option (List Char)}
    {rest : List Char} (h : matchEntryAt cs = some (kv, rest)) :
    rest.length < cs.length := by
  match cs with
  | [] => simp [matchEntryAt] at h
  | c :: cs1 =>
    by_cases hc : c = '"'
    case neg =>
      rw [matchEntryAt.eq_def] at h
      split at h
      · simp_all
      · simp at h
    case pos =>
      subst hc
      rw [matchEntryAt.eq_def] at h
      simp only at h
      split at h
      case _ key cs2 hsc =>
        have hlen1 : ('"' :: '=' :: '>' :: cs2).length ≤ cs1.length :=
          scanContent_length cs1 key _ hsc
        split at h
        case _ cs3 =>
          simp only [Option.map_eq_some'] at h
          obtain ⟨r, hr, he⟩ := h
          cases he
          have := matchTail_length hr
          simp only [List.length_cons] at hlen1 ⊢
          omega
        case _ cs3 =>
          split at h
          case _ v cs4 hsc2 =>
            have hlen2 : ('"' :: cs4).length ≤ cs3.length :=
              scanContent_length cs3 v _ hsc2
            simp only [Option.map_eq_some'] at h
            obtain ⟨r, hr, he⟩ := h
            cases he
            have := matchTail_length hr
            simp only [List.length_cons] at hlen1 hlen2 ⊢
            omega
          case _ => simp at h
        case _ => simp at h
      case _ => simp at h

/-- The global left-to-right scan of the hstore entry regex: at each
position a match is attempted; on success the scan resumes after the match,
on failure it advances one character. -/
def hstoreMatches (cs : List Char) : List (List Char × Option (List Char)) :=
  match hm : matchEntryAt cs with
  | some (kv, rest) => kv :: hstoreMatches rest
  | none =>
    match cs with
    | [] => []
    | _ :: rest => hstoreMatches rest
termination_by cs.length
decreasing_by
  · exact matchEntryAt_length hm
  · simp

/-- The `unescapeString` helper of the hstore decoder: every backslash
followed by a character the regex dot matches is replaced by that
character. -/
def unescapeChars : List Char → List Char
  | [] => []
  | '\\' :: d :: rest =>
    if isJsLineTerm d then '\\' :: unescapeChars (d :: rest)
    else d :: unescapeChars rest
  | c :: rest => c :: unescapeChars rest

/-- JavaScript object assignment: an existing key is overwritten in place,
a new key is appended (string keys keep insertion order; the reordering of
integer-like keys performed by JavaScript objects is not modelled, the
association list stands for the enumeration order of the object). -/
def objInsert (m : List (String × Value)) (k : String) (v : Value) : List (String × Value) :=
  match m with
  | [] => [(k, v)]
  | (k0, v0) :: rest => if k0 = k then (k0, v) :: rest else (k0, v0) :: objInsert rest k v

/-- The object built by the hstore decoder from the regex captures: keys and
string values are unescaped, a NULL capture stores JavaScript null. -/
def hstoreBuildObject (entries : List (List Char × Option (List Char))) : List (String × Value) :=
  entries.foldl (fun obj kv =>
    objInsert obj (String.mk (unescapeChars kv.1))
      (match kv.2 with
       | none => Value.vNull
       | some v => Value.vStr (String.mk (unescapeChars v)))) []

/-! ### Round-trip lemmas for the hstore codec -/

theorem unescape_escape (cs : List Char) : unescapeChars (escapeChars cs) = cs := by
  induction cs with
  | nil => rfl
  | cons c rest ih =>
    by_cases hc : c = '"' ∨ c = '\\'
    · rw [escapeChars, if_pos hc]
      rcases hc with h | h <;> subst h <;>
        simpa [unescapeChars, isJsLineTerm] using ih
    · rw [escapeChars, if_neg hc]
      push_neg at hc
      match he : escapeChars rest, c, hc with
      | [], c, hc => simp [unescapeChars, hc.2, ← he, ih]
      | d :: X, c, hc => simp [unescapeChars, hc.2, ← he, ih]

theorem scanContent_cons (c : Char) (rest : List Char) :
    scanContent (c :: rest) =
      if c = '"' then some ([], c :: rest)
      else if c = '\\' then
        match rest with
        | [] => none
        | d :: rest' =>
          if isJsLineTerm d then none
          else (scanContent rest').map (fun p => (c :: d :: p.1, p.2))
      else (scanContent rest).map (fun p => (c :: p.1, p.2)) := by
  cases rest <;> simp [scanContent]

theorem scanContent_quote (tail : List Char) :
    scanContent ('"' :: tail) = some ([], '"' :: tail) := by
  rw [scanContent_cons]
  simp

theorem scanContent_escape (cs tail : List Char) :
    scanContent (escapeChars cs ++ '"' :: tail) = some (escapeChars cs, '"' :: tail) := by
  induction cs with
  | nil => simpa [escapeChars] using scanContent_quote tail
  | cons c rest ih =>
    by_cases hc : c = '"' ∨ c = '\\'
    · rw [escapeChars, if_pos hc]
      have hterm : isJsLineTerm '"' = false ∧ isJsLineTerm '\\' = false := by decide
      rcases hc with h | h <;> subst h <;>
        simp [List.cons_append, scanContent_cons, hterm.1, hterm.2, ih]
    · push_neg at hc
      rw [escapeChars, if_neg (by tauto)]
      rw [List.cons_append, scanContent_cons, if_neg hc.1, if_neg hc.2, ih]
      rfl
/-- Simp lemma: string conversion of a string value is the string itself. -/
theorem jsToString_vStr (s : String) : jsToString (.vStr s) = s := by
  rw [jsToString]

/-- The capture produced by the hstore entry regex for an encoded value:
NULL for null and undefined, the escaped characters otherwise. -/
def hstoreValCapture : Value → Option (List Char)
  | .vNull => none
  | .vUndefined => none
  | v => some (escapeChars (jsToString v).data)

theorem hstoreQuoteString_cases (v : Value) :
    (v.isAbsent = true ∧ hstoreQuoteString v = ['N', 'U', 'L', 'L'] ∧
      hstoreValCapture v = none) ∨
    (v.isAbsent = false ∧
      hstoreQuoteString v = '"' :: (escapeChars (jsToString v).data ++ ['"']) ∧
      hstoreValCapture v = some (escapeChars (jsToString v).data)) := by
  cases v <;> simp [Value.isAbsent, hstoreQuoteString, hstoreValCapture]

theorem matchEntryAt_null (kd tail tailRes : List Char) (ht : matchTail tail = some tailRes) :
    matchEntryAt ('"' :: (escapeChars kd ++ '"' :: '=' :: '>' :: 'N' :: 'U' :: 'L' :: 'L' :: tail)) =
      some ((escapeChars kd, none), tailRes) := by
  rw [matchEntryAt, scanContent_escape]
  simp [ht]

theorem matchEntryAt_quoted (kd vd tail tailRes : List Char) (ht : matchTail tail = some tailRes) :
    matchEntryAt ('"' :: (escapeChars kd ++ '"' :: '=' :: '>' :: '"' :: (escapeChars vd ++ '"' :: tail))) =
      some ((escapeChars kd, some (escapeChars vd)), tailRes) := by
  rw [matchEntryAt, scanContent_escape]
  simp [scanContent_escape, ht]

theorem matchEntryAt_encoded (k : String) (v : Value) (tail tailRes : List Char)
    (ht : matchTail tail = some tailRes) :
    matchEntryAt (hstoreEntryChars (k, v) ++ tail) =
      some ((escapeChars k.data, hstoreValCapture v), tailRes) := by
  have hqk : hstoreQuoteString (.vStr k) = '"' :: (escapeChars k.data ++ ['"']) := by
    simp [hstoreQuoteString, jsToString_vStr]
  rcases hstoreQuoteString_cases v with ⟨_, hq, hcap⟩ | ⟨_, hq, hcap⟩ <;> rw [hcap]
  · have hsh : hstoreEntryChars (k, v) ++ tail =
        '"' :: (escapeChars k.data ++ '"' :: '=' :: '>' :: 'N' :: 'U' :: 'L' :: 'L' :: tail) := by
      rw [hstoreEntryChars, hq, hqk]
      simp
    rw [hsh, matchEntryAt_null _ _ _ ht]
  · have hsh : hstoreEntryChars (k, v) ++ tail =
        '"' :: (escapeChars k.data ++ '"' :: '=' :: '>' :: '"' ::
          (escapeChars (jsToString v).data ++ '"' :: tail)) := by
      rw [hstoreEntryChars, hq, hqk]
      simp
    rw [hsh, matchEntryAt_quoted _ _ _ _ ht]
theorem hstoreMatches_cons_of_match {cs : List Char} {kv : List Char × Option (List Char)}
    {rest : List Char} (h : matchEntryAt cs = some (kv, rest)) :
    hstoreMatches cs = kv :: hstoreMatches rest := by
  rw [hstoreMatches]
  split
  · next a b heq => rw [h] at heq; cases heq; rfl
  · next heq => rw [h] at heq; cases heq

theorem hstoreMatches_nil : hstoreMatches [] = [] := by
  rw [hstoreMatches]
  split
  · next a b heq => simp [matchEntryAt] at heq
  · rfl

theorem hstoreMatches_encoded (m : List (String × Value)) :
    hstoreMatches (hstoreEncodeEntries m) =
      m.map (fun kv => (escapeChars kv.1.data, hstoreValCapture kv.2)) := by
  induction m with
  | nil => simpa [hstoreEncodeEntries, joinComma] using hstoreMatches_nil
  | cons kv rest ih =>
    obtain ⟨k, v⟩ := kv
    match rest with
    | [] =>
      have h1 : hstoreEncodeEntries [(k, v)] = hstoreEntryChars (k, v) ++ [] := by
        simp [hstoreEncodeEntries, joinComma]
      rw [h1, hstoreMatches_cons_of_match (matchEntryAt_encoded k v [] [] rfl),
        hstoreMatches_nil]
      simp
    | r :: rs =>
      have h1 : hstoreEncodeEntries ((k, v) :: r :: rs) =
          hstoreEntryChars (k, v) ++ ',' :: hstoreEncodeEntries (r :: rs) := by
        simp [hstoreEncodeEntries, joinComma]
      rw [h1, hstoreMatches_cons_of_match
        (matchEntryAt_encoded k v (',' :: hstoreEncodeEntries (r :: rs)) _ rfl)]
      rw [ih]
      simp

theorem objInsert_notMem (obj : List (String × Value)) (k : String) (v : Value)
    (h : ∀ p ∈ obj, p.1 ≠ k) : objInsert obj k v = obj ++ [(k, v)] := by
  induction obj with
  | nil => rfl
  | cons p rest ih =>
    obtain ⟨k0, v0⟩ := p
    rw [objInsert, if_neg (h (k0, v0) (by simp))]
    rw [ih (fun q hq => h q (by simp [hq]))]
    rfl

theorem hstoreBuildObject_go (m acc : List (String × Value))
    (hnd : (m.map Prod.fst).Nodup)
    (hv : ∀ kv ∈ m, kv.2 = .vNull ∨ ∃ str, kv.2 = .vStr str)
    (hdisj : ∀ kv ∈ m, ∀ p ∈ acc, p.1 ≠ kv.1) :
    (m.map (fun kv => (escapeChars kv.1.data, hstoreValCapture kv.2))).foldl
      (fun obj kv =>
        objInsert obj (String.mk (unescapeChars kv.1))
          (match kv.2 with
           | none => Value.vNull
           | some v => Value.vStr (String.mk (unescapeChars v)))) acc = acc ++ m := by
  induction m generalizing acc with
  | nil => simp
  | cons kv rest ih =>
    obtain ⟨k, v⟩ := kv
    simp only [List.map_cons, List.foldl_cons]
    have hkey : String.mk (unescapeChars (escapeChars k.data)) = k := by
      rw [unescape_escape]
    have hval : (match hstoreValCapture v with
        | none => Value.vNull
        | some c => Value.vStr (String.mk (unescapeChars c))) = v := by
      rcases hv (k, v) (by simp) with h0 | ⟨str, h0⟩ <;> subst h0 <;>
        simp [hstoreValCapture, jsToString_vStr, unescape_escape]
    rw [hkey, hval]
    rw [objInsert_notMem acc k v (fun p hp => hdisj (k, v) (by simp) p hp)]
    rw [ih (acc ++ [(k, v)]) (by simpa using hnd.of_cons)
      (fun q hq => hv q (by simp [hq]))
      (fun q hq p hp => by
        rcases List.mem_append.mp hp with hp1 | hp2
        · exact hdisj q (by simp [hq]) p hp1
        · simp at hp2
          subst hp2
          simp only [List.map_cons, List.nodup_cons] at hnd
          intro hcontra
          exact hnd.1 (by
            rw [show k = q.1 from hcontra]
            exact List.mem_map_of_mem Prod.fst hq))]
    simp

theorem hstoreBuildObject_encoded (m : List (String × Value))
    (hnd : (m.map Prod.fst).Nodup)
    (hv : ∀ kv ∈ m, kv.2 = .vNull ∨ ∃ str, kv.2 = .vStr str) :
    hstoreBuildObject (m.map (fun kv => (escapeChars kv.1.data, hstoreValCapture kv.2))) = m := by
  have := hstoreBuildObject_go m [] hnd hv (by simp)
  simpa [hstoreBuildObject] using this
/-! ### JavaScript numeric coercion helpers

Used by the enum and Number hydration branches (`isNaN(+value)` and
`parseInt(value)`).  JavaScript numbers are modelled as integers: strings
denoting non-integer numbers are outside the modelled domain. -/

/-- JavaScript whitespace (the core of the `\s` class and of the trimming
performed by numeric coercion; the rarer unicode space characters are not
modelled). -/
def isJsWs (c : Char) : Bool :=
  c = ' ' ∨ c = '\t' ∨ c = '\n' ∨ c = '\r' ∨ c = '\x0b' ∨ c = '\x0c' ∨ c = ' '

/-- Leading and trailing whitespace removal. -/
def jsTrim (cs : List Char) : List Char :=
  ((cs.dropWhile isJsWs).reverse.dropWhile isJsWs).reverse

def isHexDigitChar (c : Char) : Bool :=
  c.isDigit || ('a' ≤ c && c ≤ 'f') || ('A' ≤ c && c ≤ 'F')

/-- The optional exponent part of a JavaScript number literal. -/
def expTail : List Char → Bool
  | [] => true
  | 'e' :: t => sexpDigits t
  | 'E' :: t => sexpDigits t
  | _ => false
where
  sexpDigits : List Char → Bool
    | '+' :: t => !t.isEmpty && t.all Char.isDigit
    | '-' :: t => !t.isEmpty && t.all Char.isDigit
    | t => !t.isEmpty && t.all Char.isDigit

/-- Decimal mantissa with optional fraction and exponent. -/
def mantissaExp (cs : List Char) : Bool :=
  let ip := cs.takeWhile Char.isDigit
  let rest := cs.dropWhile Char.isDigit
  match rest with
  | '.' :: frac =>
    let fp := frac.takeWhile Char.isDigit
    let rest2 := frac.dropWhile Char.isDigit
    (!ip.isEmpty || !fp.isEmpty) && expTail rest2
  | _ => !ip.isEmpty && expTail rest

/-- Whether `+s` is a number (not NaN) for a string `s`: the trimmed string
is empty, a signed decimal with optional fraction/exponent, a signed
Infinity, or an unsigned hex, octal or binary literal. -/
def isNumericString (cs0 : List Char) : Bool :=
  let cs := jsTrim cs0
  if cs.isEmpty then true
  else
    match cs with
    | '0' :: 'x' :: t => !t.isEmpty && t.all isHexDigitChar
    | '0' :: 'X' :: t => !t.isEmpty && t.all isHexDigitChar
    | '0' :: 'o' :: t => !t.isEmpty && t.all (fun c => '0' ≤ c && c ≤ '7')
    | '0' :: 'O' :: t => !t.isEmpty && t.all (fun c => '0' ≤ c && c ≤ '7')
    | '0' :: 'b' :: t => !t.isEmpty && t.all (fun c => c = '0' ∨ c = '1')
    | '0' :: 'B' :: t => !t.isEmpty && t.all (fun c => c = '0' ∨ c = '1')
    | _ =>
      let body := match cs with
        | '+' :: t => t
        | '-' :: t => t
        | t => t
      body = "Infinity".data || mantissaExp body

def decDigitsVal (cs : List Char) : Nat :=
  cs.foldl (fun a c => a * 10 + (c.toNat - 48)) 0

def hexDigitVal (c : Char) : Nat :=
  if c.isDigit then c.toNat - 48
  else if 'a' ≤ c && c ≤ 'f' then c.toNat - 87
  else c.toNat - 55

def hexDigitsVal (cs : List Char) : Nat :=
  cs.foldl (fun a c => a * 16 + hexDigitVal c) 0

/-- JavaScript parseInt on a string: trims, reads an optional sign, then the
maximal run of decimal digits (or hexadecimal digits after a 0x prefix);
returns none when no digit is read (NaN). -/
def jsParseIntChars (cs0 : List Char) : Option Int :=
  let cs := jsTrim cs0
  let sign : Int := match cs with
    | '-' :: _ => -1
    | _ => 1
  let body := match cs with
    | '+' :: t => t
    | '-' :: t => t
    | t => t
  match body with
  | '0' :: 'x' :: t =>
    let ds := t.takeWhile isHexDigitChar
    if ds.isEmpty then none else some (sign * (hexDigitsVal ds : Int))
  | '0' :: 'X' :: t =>
    let ds := t.takeWhile isHexDigitChar
    if ds.isEmpty then none else some (sign * (hexDigitsVal ds : Int))
  | t =>
    let ds := t.takeWhile Char.isDigit
    if ds.isEmpty then none else some (sign * (decDigitsVal ds : Int))

/-- Whether `+value` is NaN, following the ToNumber coercion: null and
booleans coerce to numbers, undefined is NaN, strings, arrays and objects
coerce through their string form. -/
def jsPlusIsNaN : Value → Bool
  | .vNull => false
  | .vUndefined => true
  | .vNaN => true
  | .vBool _ => false
  | .vInt _ => false
  | .vStr s => !(isNumericString s.data)
  | .vArr l => !(isNumericString (jsArrToString l).data)
  | .vMap _ => true

/-- Number() on a string, restricted to the integer fragment modelled here:
integer-formed strings yield the integer, anything else yields NaN
(non-integer numeric strings are outside the modelled domain). -/
def jsNumberOfString (s : String) : Value :=
  let cs := jsTrim s.data
  if cs.isEmpty then .vInt 0
  else
    let sign : Int := match cs with
      | '-' :: _ => -1
      | _ => 1
    let body := match cs with
      | '+' :: t => t
      | '-' :: t => t
      | t => t
    if !body.isEmpty && body.all Char.isDigit then .vInt (sign * (decDigitsVal body : Int))
    else .vNaN

/-! ### The column descriptor and the codec entry points -/

/-- The column type tag: the TypeScript `type` property is either a
constructor function (Boolean, Date, Number) or a type-name string; other
constructor types match none of the dispatch branches, like any unknown
type-name string. -/
inductive ColType where
  | tBoolean
  | tDate
  | tNumber
  | tName (s : String)
deriving DecidableEq, Repr

/-- Equality test on column types (string identity for type names, like the
=== checks of the source). -/
instance : BEq ColType := ⟨fun a b => decide (a = b)⟩

theorem colType_beq (a b : ColType) : (a == b) = decide (a = b) := rfl

/-- One element of a column transformer chain. -/
structure ValueTransformer where
  toDb : Value → Value
  fromDb : Value → Value

/-- Modelled from the spec: ApplyValueTransformers (a collaborator module
not in the source tree).  The transformer chain is an ordered list applied
outermost-last on write. -/
def applyTransformTo (ts : List ValueTransformer) (v : Value) : Value :=
  ts.foldl (fun acc t => t.toDb acc) v

/-- Modelled from the spec: ApplyValueTransformers, read direction: the
chain runs in reverse order of declaration. -/
def applyTransformFrom (ts : List ValueTransformer) (v : Value) : Value :=
  ts.reverse.foldl (fun acc t => t.fromDb acc) v

/-- The slice of ColumnMetadata consulted by the two codec entry points. -/
structure ColumnMeta where
  type : ColType
  isArray : Bool := false
  hstoreType : Option String := none
  enum : Option (List Value) := none
  transformer : Option (List ValueTransformer) := none

/-- Modelled from the spec: the date helpers (DateUtils), the simple-array
and simple-json helpers and JSON.stringify are external collaborators of
the codec; the properties proved below hold for every choice of these
functions, so they are taken as parameters of the codec. -/
structure ExternalFns where
  mixedDateToDateString : Value → Value
  mixedDateToTimeString : Value → Value
  mixedDateToDate : Value → Value
  normalizeHydratedDate : Value → Value
  mixedTimeToString : Value → Value
  simpleArrayToString : Value → Value
  stringToSimpleArray : Value → Value
  simpleJsonToString : Value → Value
  stringToSimpleJson : Value → Value
  jsonStringify : Value → Value

/-- The datetime family sharing one dispatch branch in the source. -/
def isDatetimeGroup (t : ColType) : Bool :=
  t == .tName "datetime" || t == .tDate || t == .tName "timestamp" ||
    t == .tName "timestamp with time zone" || t == .tName "timestamp without time zone"

/-- json, jsonb and the spatial types (spatialTypes is
["geometry", "geography"] in the source). -/
def isJsonSpatial (t : ColType) : Bool :=
  t == .tName "json" || t == .tName "jsonb" || t == .tName "geometry" || t == .tName "geography"

def isEnumType (t : ColType) : Bool :=
  t == .tName "enum" || t == .tName "simple-enum"

/-- Replacement of every maximal whitespace run by a single underscore
(the global `[\s]+` replacement of the ltree encoder). -/
def replaceWsRuns (cs : List Char) : List Char :=
  match cs with
  | [] => []
  | c :: rest =>
    if isJsWs c then '_' :: replaceWsRuns (rest.dropWhile isJsWs)
    else c :: replaceWsRuns rest
termination_by cs.length
decreasing_by
  · have := (List.dropWhile_suffix (l := rest) isJsWs).sublist.length_le
    simp only [List.length_cons]
    omega
  · simp

/-- The ltree encoder: split on dots, drop empty segments, rejoin, then
normalize whitespace runs to underscores. -/
def ltreeEncode (s : String) : String :=
  String.mk (replaceWsRuns (String.intercalate "." ((s.splitOn ".").filter (fun x => x ≠ ""))).data)

/-- The element list of a JavaScript array value (calling array methods on a
non-array would throw; those inputs are outside the modelled domain). -/
def asArrElems : Value → List Value
  | .vArr l => l
  | _ => []

/-- JavaScript String.prototype.slice(1, -1). -/
def jsSlice1m1 (s : String) : String :=
  String.mk ((s.data.drop 1).dropLast)

/-- The enum-array unescaping `/\\(\\|")/g` replaced by the captured
character: only escaped backslashes and escaped quotes are unescaped. -/
def unescapeEnumChars : List Char → List Char
  | [] => []
  | '\\' :: '\\' :: rest => '\\' :: unescapeEnumChars rest
  | '\\' :: '"' :: rest => '"' :: unescapeEnumChars rest
  | c :: rest => c :: unescapeEnumChars rest

/-- The numeric coercion applied to each decoded enum member:
`!isNaN(+val) && enum.indexOf(parseInt(val)) >= 0 ? parseInt(val) : val`
(indexOf uses strict equality, so only number options can match). -/
def enumCoerceString (options : List Value) (s : String) : Value :=
  if isNumericString s.data then
    match jsParseIntChars s.data with
    | some n =>
      if options.any (fun o => match o with | .vInt m => m == n | _ => false)
      then .vInt n else .vStr s
    | none => .vStr s
  else .vStr s

/-- The enum-array decoding: strip the braces, split on commas, strip
surrounding double quotes, unescape, then coerce numeric members. -/
def enumArrayHydrate (col : ColumnMeta) (s : String) : Value :=
  let items := ((jsSlice1m1 s).splitOn ",").map (fun val =>
    let val := if val.startsWith "\"" && val.endsWith "\"" then jsSlice1m1 val else val
    String.mk (unescapeEnumChars val.data))
  .vArr (items.map (fun val => enumCoerceString (col.enum.getD []) val))

/-- The scalar enum decoding: numeric coercion on the raw value. -/
def enumScalarHydrate (col : ColumnMeta) (v : Value) : Value :=
  if !(jsPlusIsNaN v) then
    match jsParseIntChars (jsToString v).data with
    | some n =>
      if (col.enum.getD []).any (fun o => match o with | .vInt m => m == n | _ => false)
      then .vInt n else v
    | none => v
  else v

/-- The cube cleanup `replace(/[()\s]+/g, "")`: parentheses and whitespace
are removed. -/
def stripParenWs (s : String) : String :=
  String.mk (s.data.filter (fun c => ¬ (c = '(' ∨ c = ')' ∨ isJsWs c = true)))

/-- The character class `[\d\s.,]` of the cube-array regex. -/
def cubeAllowedChar (c : Char) : Bool :=
  c.isDigit || isJsWs c || c = '.' || c = ','

/-- One attempt of the cube-array regex `(?:"((?:[\d\s.,])*)")|(?:(NULL))`
at the current position. -/
def cubeMatchAt (cs : List Char) : Option (Option (List Char) × List Char) :=
  match cs with
  | '"' :: rest =>
    match rest.dropWhile cubeAllowedChar with
    | '"' :: rest3 => some (some (rest.takeWhile cubeAllowedChar), rest3)
    | _ => none
  | 'N' :: 'U' :: 'L' :: 'L' :: rest => some (none, rest)
  | _ => none

theorem cubeMatchAt_length {cs : List Char} {cap : Option (List Char)} {rest : List Char}
    (h : cubeMatchAt cs = some (cap, rest)) : rest.length < cs.length := by
  rw [cubeMatchAt.eq_def] at h
  split at h
  · rename_i rest1
    split at h
    · rename_i rest3 heq
      simp only [Option.some.injEq, Prod.mk.injEq] at h
      obtain ⟨h1, h2⟩ := h
      subst h2
      have hsub := (List.dropWhile_suffix (l := rest1) cubeAllowedChar).sublist.length_le
      rw [heq] at hsub
      simp only [List.length_cons] at hsub ⊢
      omega
    · simp at h
  · rename_i rest1
    simp only [Option.some.injEq, Prod.mk.injEq] at h
    simp only [← h.2, List.length_cons]
    omega
  · simp at h

/-- The parsed member of one cube-array capture. -/
def cubeCapValue (cap : Option (List Char)) : Value :=
  match cap with
  | some run =>
    .vArr ((((String.mk run).splitOn ",").filter (fun x => x ≠ "")).map jsNumberOfString)
  | none => .vUndefined

/-- The exec loop over the cube-array regex: all matches left to right. -/
def cubeArrayScan (cs : List Char) : List Value :=
  match hm : cubeMatchAt cs with
  | some (cap, rest) => cubeCapValue cap :: cubeArrayScan rest
  | none =>
    match cs with
    | [] => []
    | _ :: rest => cubeArrayScan rest
termination_by cs.length
decreasing_by
  · exact cubeMatchAt_length hm
  · simp

/-- The cube hydration branch. -/
def cubeHydrate (v : Value) (isArr : Bool) : Value :=
  match v with
  | .vStr s =>
    let cleaned := stripParenWs s
    if isArr then .vArr (cubeArrayScan cleaned.data)
    else .vArr (((cleaned.splitOn ",").filter (fun x => x ≠ "")).map jsNumberOfString)
  | _ => v

/-- The Number-typed hydration branch:
`!isNaN(+value) ? parseInt(value) : value`. -/
def numberHydrate (v : Value) : Value :=
  if !(jsPlusIsNaN v) then
    match jsParseIntChars (jsToString v).data with
    | some n => .vInt n
    | none => .vNaN
  else v

/-- PostgresDriver.preparePersistentValue: the write-direction codec.  The
transformer chain is applied first, null and undefined are then returned
unchanged, otherwise the value is encoded by column type. -/
def preparePersistentValue (ext : ExternalFns) (v : Value) (col : ColumnMeta) : Value :=
  let value := match col.transformer with
    | some ts => applyTransformTo ts v
    | none => v
  if value.isAbsent then value
  else if col.type == .tBoolean then
    (match value with | .vBool true => .vInt 1 | _ => .vInt 0)
  else if col.type == .tName "date" then ext.mixedDateToDateString value
  else if col.type == .tName "time" then ext.mixedDateToTimeString value
  else if isDatetimeGroup col.type then ext.mixedDateToDate value
  else if isJsonSpatial col.type then ext.jsonStringify value
  else if col.type == .tName "hstore" then
    (match value with
     | .vStr str => .vStr str
     | _ => .vStr (String.mk (hstoreEncodeEntries (objectEntries value))))
  else if col.type == .tName "simple-array" then ext.simpleArrayToString value
  else if col.type == .tName "simple-json" then ext.simpleJsonToString value
  else if col.type == .tName "cube" then
    (if col.isArray then
      .vStr ("\x7b" ++ String.intercalate ","
        ((asArrElems value).map (fun cube => "\"(" ++ jsArrToString (asArrElems cube) ++ ")\"")) ++ "\x7d")
    else .vStr ("(" ++ jsArrToString (asArrElems value) ++ ")"))
  else if col.type == .tName "ltree" then
    (match value with
     | .vStr str => .vStr (ltreeEncode str)
     | _ => value)
  else if isEnumType col.type && !col.isArray then
    .vStr (jsToString value)
  else value

/-- The type-dispatch of PostgresDriver.prepareHydratedValue for a
non-absent value (the enum-array early return for the empty array literal
is handled by the caller). -/
def hydrateByType (ext : ExternalFns) (v : Value) (col : ColumnMeta) : Value :=
  if col.type == .tBoolean then .vBool (truthy v)
  else if isDatetimeGroup col.type then ext.normalizeHydratedDate v
  else if col.type == .tName "date" then ext.mixedDateToDateString v
  else if col.type == .tName "time" then ext.mixedTimeToString v
  else if col.type == .tName "hstore" then
    (if col.hstoreType == some "object" then
      .vMap (hstoreBuildObject (hstoreMatches (jsToString v).data))
    else v)
  else if col.type == .tName "simple-array" then ext.stringToSimpleArray v
  else if col.type == .tName "simple-json" then ext.stringToSimpleJson v
  else if col.type == .tName "cube" then cubeHydrate v col.isArray
  else if isEnumType col.type then
    (if col.isArray then
      (match v with
       | .vStr str => enumArrayHydrate col str
       | _ => v)
    else enumScalarHydrate col v)
  else if col.type == .tNumber then numberHydrate v
  else v

/-- PostgresDriver.prepareHydratedValue: the read-direction codec.  A null
or undefined storage value short-circuits (running only the reversed
transformer chain); the enum-array empty literal returns the empty array
immediately, before and instead of the transformer chain (the early
`return []` of the source); every other value is decoded by type and the
transformer chain runs last. -/
def prepareHydratedValue (ext : ExternalFns) (v : Value) (col : ColumnMeta) : Value :=
  if v.isAbsent then
    match col.transformer with
    | some ts => applyTransformFrom ts v
    | none => v
  else if isEnumType col.type && col.isArray &&
      (match v with | .vStr str => str == "\x7b\x7d" | _ => false) then
    .vArr []
  else
    let value := hydrateByType ext v col
    match col.transformer with
    | some ts => applyTransformFrom ts value
    | none => value

/-! ### Codec unfolding lemmas -/

theorem preparePersistentValue_hstore_map (ext : ExternalFns) (col : ColumnMeta)
    (hty : col.type = .tName "hstore") (htr : col.transformer = none)
    (m : List (String × Value)) :
    preparePersistentValue ext (.vMap m) col = .vStr (String.mk (hstoreEncodeEntries m)) := by
  simp [preparePersistentValue, htr, hty, Value.isAbsent, isDatetimeGroup, isJsonSpatial,
    objectEntries, colType_beq]

theorem prepareHydratedValue_hstore_str (ext : ExternalFns) (col : ColumnMeta)
    (hty : col.type = .tName "hstore") (hh : col.hstoreType = some "object")
    (htr : col.transformer = none) (s : String) :
    prepareHydratedValue ext (.vStr s) col = .vMap (hstoreBuildObject (hstoreMatches s.data)) := by
  simp [prepareHydratedValue, hydrateByType, htr, hty, hh, Value.isAbsent, isDatetimeGroup,
    isEnumType, jsToString_vStr, colType_beq]

/-- A trivial instantiation of the external collaborator functions, used by
the concrete witnesses below. -/
def idExternalFns : ExternalFns :=
  ⟨id, id, id, id, id, id, id, id, id, id⟩

/-! ### Concrete column descriptors used by the witnesses -/

/-- An hstore column hydrated to an object, without transformer. -/
def hstoreObjCol : ColumnMeta :=
  { type := .tName "hstore", hstoreType := some "object" }

/-- A boolean column without transformer. -/
def boolCol : ColumnMeta := { type := .tBoolean }

/-- An enum-array column with a transformer chain whose read direction is a
constant, making a bypassed transformer observable. -/
def enumArrCol : ColumnMeta :=
  { type := .tName "enum", isArray := true, enum := some [],
    transformer := some [⟨fun v => v, fun _ => Value.vInt 42⟩] }

/-! ### Claim theorems for the value codec -/

/-- C1: encoding a key-value map for an hstore column produces
`"k"=>"v"` pairs joined by commas, with keys and string values
double-quoted and embedded quotes and backslashes escaped by a backslash
prefix, a null map value encoded as the unquoted literal NULL; decoding
(for hstoreType "object") inverts this exactly, mapping the unquoted NULL
token back to logical null while the quoted string "NULL" decodes to the
string "NULL". -/
theorem claim_C1 (ext : ExternalFns) (col : ColumnMeta)
    (hty : col.type = .tName "hstore") (hh : col.hstoreType = some "object")
    (htr : col.transformer = none) :
    (∀ m : List (String × Value), (m.map Prod.fst).Nodup →
      (∀ kv ∈ m, kv.2 = .vNull ∨ ∃ str, kv.2 = .vStr str) →
      prepareHydratedValue ext (preparePersistentValue ext (.vMap m) col) col = .vMap m) ∧
    preparePersistentValue ext (.vMap [("k", .vNull)]) col = .vStr "\"k\"=>NULL" ∧
    preparePersistentValue ext (.vMap [("a\"b", .vStr "c\\d")]) col
      = .vStr "\"a\\\"b\"=>\"c\\\\d\"" ∧
    prepareHydratedValue ext (.vStr "\"k\"=>NULL") col = .vMap [("k", .vNull)] ∧
    prepareHydratedValue ext (.vStr "\"k\"=>\"NULL\"") col = .vMap [("k", .vStr "NULL")] := by
  refine ⟨?_, ?_, ?_, ?_, ?_⟩
  · intro m hnd hv
    rw [preparePersistentValue_hstore_map ext col hty htr m,
      prepareHydratedValue_hstore_str ext col hty hh htr]
    show Value.vMap (hstoreBuildObject (hstoreMatches (hstoreEncodeEntries m))) = _
    rw [hstoreMatches_encoded m, hstoreBuildObject_encoded m hnd hv]
  · rw [preparePersistentValue_hstore_map ext col hty htr]
    rw [show hstoreEncodeEntries [("k", .vNull)] = "\"k\"=>NULL".data by
      simp [hstoreEncodeEntries, hstoreEntryChars, hstoreQuoteString, jsToString_vStr, joinComma]
      decide]
  · rw [preparePersistentValue_hstore_map ext col hty htr]
    rw [show hstoreEncodeEntries [("a\"b", .vStr "c\\d")] = "\"a\\\"b\"=>\"c\\\\d\"".data by
      simp [hstoreEncodeEntries, hstoreEntryChars, hstoreQuoteString, jsToString_vStr, joinComma]
      decide]
  · rw [prepareHydratedValue_hstore_str ext col hty hh htr]
    rw [hstoreMatches_cons_of_match
      (show matchEntryAt ("\"k\"=>NULL".data) = some ((['k'], none), []) by decide),
      hstoreMatches_nil]
    rfl
  · rw [prepareHydratedValue_hstore_str ext col hty hh htr]
    rw [hstoreMatches_cons_of_match
      (show matchEntryAt ("\"k\"=>\"NULL\"".data)
        = some ((['k'], some ['N', 'U', 'L', 'L']), []) by decide),
      hstoreMatches_nil]
    rfl

/-- Witness for C1 at a concrete column and map. -/
theorem claim_C1_witness :
    hstoreObjCol.type = .tName "hstore" ∧ hstoreObjCol.hstoreType = some "object" ∧
    hstoreObjCol.transformer = none ∧
    prepareHydratedValue idExternalFns
      (preparePersistentValue idExternalFns
        (.vMap [("k", .vNull), ("x", .vStr "NULL")]) hstoreObjCol) hstoreObjCol
      = .vMap [("k", .vNull), ("x", .vStr "NULL")] := by
  refine ⟨rfl, rfl, rfl, ?_⟩
  exact (claim_C1 idExternalFns hstoreObjCol rfl rfl rfl).1
    [("k", .vNull), ("x", .vStr "NULL")] (by decide)
    (by
      intro kv hkv
      simp only [List.mem_cons, List.not_mem_nil, or_false] at hkv
      rcases hkv with h | h
      · exact Or.inl (by rw [h])
      · exact Or.inr ⟨"NULL", by rw [h]⟩)

/-- C7: null and undefined pass through the codec unchanged apart from the
user transformer chain: encode applies the write chain first and returns
the value unchanged when it is still absent; decode of an absent storage
value returns it directly on a transformer-free column and otherwise only
runs the reversed read chain. -/
theorem claim_C7 (ext : ExternalFns) (col : ColumnMeta) (v : Value)
    (hv : v.isAbsent = true) :
    (col.transformer = none →
      preparePersistentValue ext v col = v ∧ prepareHydratedValue ext v col = v) ∧
    (∀ ts, col.transformer = some ts →
      ((applyTransformTo ts v).isAbsent = true →
        preparePersistentValue ext v col = applyTransformTo ts v) ∧
      prepareHydratedValue ext v col = applyTransformFrom ts v) := by
  constructor
  · intro htr
    constructor
    · simp [preparePersistentValue, htr, hv]
    · simp [prepareHydratedValue, htr, hv]
  · intro ts hts
    constructor
    · intro habs
      simp [preparePersistentValue, hts, habs]
    · simp [prepareHydratedValue, hts, hv]

/-- Witness for C7 at null on a transformer-free boolean column. -/
theorem claim_C7_witness :
    Value.isAbsent .vNull = true ∧
    preparePersistentValue idExternalFns .vNull boolCol = .vNull ∧
    prepareHydratedValue idExternalFns .vNull boolCol = .vNull := by
  have h := claim_C7 idExternalFns boolCol .vNull rfl
  exact ⟨rfl, (h.1 rfl).1, (h.1 rfl).2⟩

/-- C8: on a Boolean-typed column encode maps true to the integer 1 and
every other present value to 0, decode normalizes native booleans and
integers to a logical boolean, and decode after encode is the identity on
booleans. -/
theorem claim_C8 (ext : ExternalFns) (col : ColumnMeta)
    (hty : col.type = .tBoolean) (htr : col.transformer = none) :
    preparePersistentValue ext (.vBool true) col = .vInt 1 ∧
    (∀ v : Value, v.isAbsent = false → v ≠ .vBool true →
      preparePersistentValue ext v col = .vInt 0) ∧
    (∀ b : Bool, prepareHydratedValue ext (.vBool b) col = .vBool b) ∧
    (∀ n : Int, prepareHydratedValue ext (.vInt n) col = .vBool (n != 0)) ∧
    (∀ b : Bool,
      prepareHydratedValue ext (preparePersistentValue ext (.vBool b) col) col = .vBool b) := by
  have henc : ∀ v : Value, v.isAbsent = false → v ≠ .vBool true →
      preparePersistentValue ext v col = .vInt 0 := by
    intro v hva hvt
    cases v with
    | vBool b =>
      cases b with
      | true => exact absurd rfl hvt
      | false => simp [preparePersistentValue, htr, hty, Value.isAbsent, colType_beq]
    | vNull => simp [Value.isAbsent] at hva
    | vUndefined => simp [Value.isAbsent] at hva
    | _ => simp [preparePersistentValue, htr, hty, Value.isAbsent, colType_beq]
  have hdec : ∀ v : Value, v.isAbsent = false →
      prepareHydratedValue ext v col = .vBool (truthy v) := by
    intro v hva
    simp [prepareHydratedValue, hydrateByType, htr, hty, hva, isEnumType, colType_beq]
  refine ⟨?_, henc, ?_, ?_, ?_⟩
  · simp [preparePersistentValue, htr, hty, Value.isAbsent, colType_beq]
  · intro b
    rw [hdec (.vBool b) rfl]
    rfl
  · intro n
    rw [hdec (.vInt n) rfl]
    rfl
  · intro b
    cases b with
    | true =>
      rw [show preparePersistentValue ext (.vBool true) col = .vInt 1 by
        simp [preparePersistentValue, htr, hty, Value.isAbsent, colType_beq]]
      rw [hdec (.vInt 1) rfl]
      rfl
    | false =>
      rw [henc (.vBool false) rfl (by simp)]
      rw [hdec (.vInt 0) rfl]
      rfl

/-- Witness for C8 at the boolean column: round trip on both booleans. -/
theorem claim_C8_witness :
    boolCol.type = .tBoolean ∧ boolCol.transformer = none ∧
    prepareHydratedValue idExternalFns
      (preparePersistentValue idExternalFns (.vBool true) boolCol) boolCol = .vBool true ∧
    prepareHydratedValue idExternalFns
      (preparePersistentValue idExternalFns (.vBool false) boolCol) boolCol = .vBool false := by
  have h := claim_C8 idExternalFns boolCol rfl rfl
  exact ⟨rfl, rfl, h.2.2.2.2 true, h.2.2.2.2 false⟩

/-- C9: for an enum-array column, decode of the literal string consisting of
an opening and closing brace returns the empty array immediately, bypassing
the declared transformer chain, while every other string input is decoded
and then passed through the reversed transformer chain. -/
theorem claim_C9 (ext : ExternalFns) (col : ColumnMeta) (ts : List ValueTransformer)
    (hty : col.type = .tName "enum" ∨ col.type = .tName "simple-enum")
    (harr : col.isArray = true) (htr : col.transformer = some ts) :
    prepareHydratedValue ext (.vStr "\x7b\x7d") col = .vArr [] ∧
    (∀ s : String, s ≠ "\x7b\x7d" →
      prepareHydratedValue ext (.vStr s) col =
        applyTransformFrom ts (enumArrayHydrate col s)) := by
  constructor
  · rcases hty with h | h <;>
      simp [prepareHydratedValue, h, harr, isEnumType, colType_beq, Value.isAbsent]
  · intro s hs
    rcases hty with h | h <;>
      simp [prepareHydratedValue, hydrateByType, h, harr, htr, isEnumType, colType_beq,
        Value.isAbsent, isDatetimeGroup, hs]

/-- Witness for C9: the empty-array literal bypasses a transformer whose
read direction is a constant, while another input goes through it. -/
theorem claim_C9_witness :
    enumArrCol.type = .tName "enum" ∧ enumArrCol.isArray = true ∧
    prepareHydratedValue idExternalFns (.vStr "\x7b\x7d") enumArrCol = .vArr [] ∧
    prepareHydratedValue idExternalFns (.vStr "\x7ba\x7d") enumArrCol = .vInt 42 := by
  have h := claim_C9 idExternalFns enumArrCol
    [⟨fun v => v, fun _ => Value.vInt 42⟩] (Or.inl rfl) rfl rfl
  refine ⟨rfl, rfl, h.1, ?_⟩
  rw [h.2 "\x7ba\x7d" (by decide)]
  rfl

/-- C10: a value that is already a string is persisted verbatim for an
hstore column, with no quoting, escaping or validation. -/
theorem claim_C10 (ext : ExternalFns) (col : ColumnMeta)
    (hty : col.type = .tName "hstore") (htr : col.transformer = none) (s : String) :
    preparePersistentValue ext (.vStr s) col = .vStr s := by
  simp [preparePersistentValue, htr, hty, colType_beq, Value.isAbsent, isDatetimeGroup,
    isJsonSpatial]

/-- Witness for C10 at a string containing quote and backslash characters
that the map encoder would have escaped. -/
theorem claim_C10_witness :
    hstoreObjCol.type = .tName "hstore" ∧ hstoreObjCol.transformer = none ∧
    preparePersistentValue idExternalFns (.vStr "a\"b\\c") hstoreObjCol = .vStr "a\"b\\c" :=
  ⟨rfl, rfl, claim_C10 idExternalFns hstoreObjCol rfl rfl "a\"b\\c"⟩

/-! ## EntityMetadataBuilder models

The following sections embed the resolution passes of EntityMetadataBuilder
(same source file).  Each pass is modelled on the slice of EntityMetadata it
reads and writes; collaborator constructors that are not part of the source
tree (JunctionEntityMetadataBuilder, the metadata constructors and the
metadata-args storage) are modelled from the spec and noted as such. -/

/-! ### C2: junction synthesis for many-to-many relations
(EntityMetadataBuilder.build, the junction loop) -/

/-- The slice of a relation read by the junction loop: the cardinality flag
and the result of `metadataArgsStorage.findJoinTable` (none means the
inverse side of the many-to-many relation, which is skipped). -/
structure MMRelation where
  isManyToMany : Bool
  joinTable : Option String
deriving DecidableEq, Repr

/-- The slice of EntityMetadata read by the junction loop. -/
structure EMJ where
  tableName : String
  isJunction : Bool
  tableType : String
  relations : List MMRelation
deriving DecidableEq, Repr

/-- The duplicate check of the junction loop: some already-present
entity has the same table name and is not itself a junction. -/
def junctionClash (acc : List EMJ) (j : EMJ) : Bool :=
  acc.any (fun m => m.tableName == j.tableName && !m.isJunction)

/-- Processing of one many-to-many relation: without a join table nothing
happens; otherwise the junction builder output is appended unless a
same-named user-defined (non-junction) entity is already present. -/
def junctionStepRel (bj : EMJ → MMRelation → EMJ) (em : EMJ) (acc : List EMJ)
    (r : MMRelation) : List EMJ :=
  match r.joinTable with
  | none => acc
  | some _ =>
    let j := bj em r
    if junctionClash acc j then acc else acc ++ [j]

/-- Processing of all many-to-many relations of one entity. -/
def junctionPassEntity (bj : EMJ → MMRelation → EMJ) (acc : List EMJ) (em : EMJ) : List EMJ :=
  (em.relations.filter (·.isManyToMany)).foldl (junctionStepRel bj em) acc

/-- The junction loop of build: it visits the entities present when the
loop starts (appended junction entities are not iterated), skipping
entity-child metadatas, and threads the growing metadata list through the
per-relation steps.  The junction builder itself
(JunctionEntityMetadataBuilder.build) is not part of the source tree and is
passed as a parameter `bj`; the spec says it synthesizes a new junction
EntityMetadata for the owning relation. -/
def junctionPass (bj : EMJ → MMRelation → EMJ) (initial : List EMJ) : List EMJ :=
  (initial.filter (fun em => em.tableType ≠ "entity-child")).foldl (junctionPassEntity bj) initial

/-- The owning many-to-many relations visited by the junction loop, paired
with their entity, in visiting order. -/
def owningPairs (initial : List EMJ) : List (EMJ × MMRelation) :=
  (initial.filter (fun em => em.tableType ≠ "entity-child")).flatMap (fun em =>
    (em.relations.filter (·.isManyToMany)).filterMap (fun r =>
      if r.joinTable.isSome then some (em, r) else none))

theorem junctionClash_append (initial js : List EMJ) (j : EMJ)
    (hinit : ∀ m ∈ initial, m.isJunction = false)
    (hjs : ∀ m ∈ js, m.isJunction = true) :
    junctionClash (initial ++ js) j = initial.any (fun m => m.tableName == j.tableName) := by
  have h1 : js.any (fun m => m.tableName == j.tableName && !m.isJunction) = false := by
    rw [List.any_eq_false]
    intro m hm
    simp [hjs m hm]
  have h2 : initial.any (fun m => m.tableName == j.tableName && !m.isJunction) =
      initial.any (fun m => m.tableName == j.tableName) := by
    clear h1
    induction initial with
    | nil => rfl
    | cons a l ih =>
      simp only [List.any_cons, hinit a (by simp), Bool.not_false, Bool.and_true]
      rw [ih (fun m hm => hinit m (by simp [hm]))]
  rw [junctionClash, List.any_append, h1, Bool.or_false, h2]

/-- The junction entities contributed by the many-to-many relations of one
entity: one per relation with a join table, dropped when a user-defined
table of the same name is present in the initial set. -/
def entityJunctions (bj : EMJ → MMRelation → EMJ) (em : EMJ) (rs : List MMRelation) : List EMJ :=
  rs.filterMap (fun r => if r.joinTable.isSome then some (bj em r) else none)

theorem junctionPassEntity_closed (bj : EMJ → MMRelation → EMJ) (initial : List EMJ)
    (em : EMJ) (rs : List MMRelation) (js : List EMJ)
    (hinit : ∀ m ∈ initial, m.isJunction = false)
    (hjs : ∀ m ∈ js, m.isJunction = true)
    (hbj : ∀ e r, (bj e r).isJunction = true) :
    rs.foldl (junctionStepRel bj em) (initial ++ js) =
      initial ++ js ++ ((entityJunctions bj em rs).filter
        (fun j => !(initial.any (fun m => m.tableName == j.tableName)))) := by
  induction rs generalizing js with
  | nil => simp [entityJunctions]
  | cons r rest ih =>
    simp only [List.foldl_cons]
    match hr : r.joinTable with
    | none =>
      rw [show junctionStepRel bj em (initial ++ js) r = initial ++ js by
        simp [junctionStepRel, hr]]
      rw [ih js hjs]
      simp [entityJunctions, List.filterMap_cons, hr]
    | some jt =>
      rw [show junctionStepRel bj em (initial ++ js) r =
          (if initial.any (fun m => m.tableName == (bj em r).tableName) then initial ++ js
           else initial ++ (js ++ [bj em r])) by
        simp only [junctionStepRel, hr, junctionClash_append initial js _ hinit hjs]
        split <;> simp]
      by_cases hcl : initial.any (fun m => m.tableName == (bj em r).tableName) = true
      · rw [if_pos hcl, ih js hjs]
        simp [entityJunctions, List.filterMap_cons, hr, hcl]
      · rw [if_neg hcl, ih (js ++ [bj em r]) (by
          intro m hm
          rcases List.mem_append.mp hm with h | h
          · exact hjs m h
          · simp only [List.mem_singleton] at h
            rw [h]
            exact hbj em r)]
        rw [Bool.not_eq_true] at hcl
        simp [entityJunctions, List.filterMap_cons, hr, hcl]

theorem junctionFold_closed (bj : EMJ → MMRelation → EMJ) (initial : List EMJ)
    (ems : List EMJ) (js : List EMJ)
    (hinit : ∀ m ∈ initial, m.isJunction = false)
    (hjs : ∀ m ∈ js, m.isJunction = true)
    (hbj : ∀ e r, (bj e r).isJunction = true) :
    ems.foldl (junctionPassEntity bj) (initial ++ js) =
      initial ++ js ++ ((ems.flatMap (fun em =>
          entityJunctions bj em (em.relations.filter (·.isManyToMany)))).filter
        (fun j => !(initial.any (fun m => m.tableName == j.tableName)))) := by
  induction ems generalizing js with
  | nil => simp
  | cons em rest ih =>
    simp only [List.foldl_cons]
    rw [show junctionPassEntity bj (initial ++ js) em =
        initial ++ js ++ ((entityJunctions bj em (em.relations.filter (·.isManyToMany))).filter
          (fun j => !(initial.any (fun m => m.tableName == j.tableName)))) from
      junctionPassEntity_closed bj initial em _ js hinit hjs hbj]
    rw [List.append_assoc initial js]
    rw [ih (js ++ _) (by
      intro m hm
      rcases List.mem_append.mp hm with h | h
      · exact hjs m h
      · have := List.mem_filter.mp h
        rcases List.mem_filterMap.mp this.1 with ⟨r, _, hr⟩
        split at hr
        · cases hr
          exact hbj em r
        · cases hr)]
    simp [List.flatMap_cons, List.filter_append]

theorem junctionPass_closed (bj : EMJ → MMRelation → EMJ) (initial : List EMJ)
    (hinit : ∀ m ∈ initial, m.isJunction = false)
    (hbj : ∀ e r, (bj e r).isJunction = true) :
    junctionPass bj initial =
      initial ++ ((owningPairs initial).map (fun p => bj p.1 p.2)).filter
        (fun j => !(initial.any (fun m => m.tableName == j.tableName))) := by
  have hmain := junctionFold_closed bj initial
    (initial.filter (fun em => em.tableType ≠ "entity-child")) [] hinit (by simp) hbj
  rw [junctionPass]
  rw [show initial = initial ++ [] by simp] at hmain
  simp only [List.append_nil] at hmain
  rw [hmain]
  have hflat : (initial.filter (fun em => em.tableType ≠ "entity-child")).flatMap
      (fun em => entityJunctions bj em (em.relations.filter (·.isManyToMany))) =
      (owningPairs initial).map (fun p => bj p.1 p.2) := by
    rw [owningPairs]
    generalize initial.filter (fun em => em.tableType ≠ "entity-child") = ems
    induction ems with
    | nil => simp
    | cons em rest ih =>
      simp only [List.flatMap_cons, List.map_append, ← ih]
      congr 1
      rw [entityJunctions, List.map_filterMap]
      congr 1
      funext r
      split <;> rfl
  rw [hflat]
/-- C2: the junction loop appends exactly one synthesized junction entity
per owning many-to-many relation (one with a declared join table), and a
synthesized junction is absent from the returned set exactly when a
non-junction (user-defined) entity with the same table name already exists
in the build. -/
theorem claim_C2 (bj : EMJ → MMRelation → EMJ) (initial : List EMJ)
    (hinit : ∀ m ∈ initial, m.isJunction = false)
    (hbj : ∀ e r, (bj e r).isJunction = true) :
    junctionPass bj initial =
      initial ++ ((owningPairs initial).map (fun p => bj p.1 p.2)).filter
        (fun j => !(initial.any (fun m => m.tableName == j.tableName))) ∧
    (∀ em r, (em, r) ∈ owningPairs initial →
      (bj em r ∈ junctionPass bj initial ↔
        initial.any (fun m => m.tableName == (bj em r).tableName) = false)) := by
  have hc := junctionPass_closed bj initial hinit hbj
  refine ⟨hc, ?_⟩
  intro em r hmem
  rw [hc]
  constructor
  · intro hin
    rcases List.mem_append.mp hin with h | h
    · have h1 := hinit _ h
      rw [hbj em r] at h1
      cases h1
    · have h2 := (List.mem_filter.mp h).2
      simpa using h2
  · intro hany
    refine List.mem_append.mpr (Or.inr ?_)
    exact List.mem_filter.mpr ⟨List.mem_map.mpr ⟨(em, r), hmem, rfl⟩, by simp [hany]⟩

/-- Entity with two many-to-many relations: one owning (join table), one
inverse side. -/
def emA : EMJ := ⟨"a", false, "regular", [⟨true, some "a_b"⟩, ⟨true, none⟩]⟩

/-- A second user-defined entity with an unrelated name. -/
def emB : EMJ := ⟨"b", false, "regular", []⟩

/-- A user-defined entity whose table name collides with the synthesized
junction name. -/
def emC : EMJ := ⟨"a_join", false, "regular", []⟩

/-- A concrete junction builder for the witnesses. -/
def bjW : EMJ → MMRelation → EMJ :=
  fun em _ => ⟨em.tableName ++ "_join", true, "junction", []⟩

/-- Witness for C2: the synthesized junction is kept when no user-defined
table has its name and dropped when one does. -/
theorem claim_C2_witness :
    (∀ m ∈ [emA, emB], m.isJunction = false) ∧
    bjW emA ⟨true, some "a_b"⟩ ∈ junctionPass bjW [emA, emB] ∧
    bjW emA ⟨true, some "a_b"⟩ ∉ junctionPass bjW [emA, emC] := by
  have h1 := claim_C2 bjW [emA, emB] (by decide) (fun e r => rfl)
  have h2 := claim_C2 bjW [emA, emC] (by decide) (fun e r => rfl)
  refine ⟨by decide, ?_, ?_⟩
  · exact (h1.2 emA ⟨true, some "a_b"⟩ (by decide)).mpr (by decide)
  · intro hin
    exact absurd ((h2.2 emA ⟨true, some "a_b"⟩ (by decide)).mp hin) (by decide)

/-! ### C3: inverse-side resolution
(EntityMetadataBuilder.computeInverseProperties) -/

/-- An entity target: a class (identified by object identity, modelled with
a numeric identifier) or a string name. -/
inductive EMTarget where
  | cls (id : Nat)
  | str (s : String)
deriving DecidableEq, Repr

/-- Equality test on targets (=== on functions is object identity, on
strings it is string equality). -/
instance : BEq EMTarget := ⟨fun a b => decide (a = b)⟩

theorem emTarget_beq (a b : EMTarget) : (a == b) = decide (a = b) := rfl

/-- The slice of RelationMetadata read during inverse resolution:
`relation.type` (the resolved target), the property path and the computed
inverse-side property path (`buildInverseSidePropertyPath` is a
RelationMetadata method outside the source tree; its result is carried as
data). -/
structure InvRelation where
  type : EMTarget
  propertyPath : String
  inverseSidePropertyPath : String
deriving DecidableEq, Repr

/-- The slice of EntityMetadata read during inverse resolution. -/
structure EMI where
  name : String
  target : EMTarget
  targetName : String
  givenTableName : Option String
  relations : List InvRelation
deriving DecidableEq, Repr

/-- The match of one candidate metadata against a relation target:
`m.target === relation.type` or, for string-declared targets, equality with
the target name or the given table name. -/
def inverseMatches (r : InvRelation) (m : EMI) : Bool :=
  m.target == r.type ||
    (match r.type with
     | .str str => m.targetName == str || m.givenTableName == some str
     | .cls _ => false)

def findInverseEM (metas : List EMI) (r : InvRelation) : Option EMI :=
  metas.find? (fun m => inverseMatches r m)

/-- The resolution error message, naming the offending entity and the
relation property path (source: "Entity metadata for X#path was not
found..."). -/
def inverseErrorMsg (emName propertyPath : String) : String :=
  "Entity metadata for " ++ emName ++ "#" ++ propertyPath ++
    " was not found. Check if you specified a correct entity object and if it\x27s connected in the connection options."

/-- A relation together with its resolved inverse entity metadata and the
matching inverse relation, when one exists. -/
structure ResolvedRelation where
  relation : InvRelation
  inverseEntityMetadata : EMI
  inverseRelation : Option InvRelation
deriving DecidableEq, Repr

/-- Resolution of the relations of one entity, aborting at the first
relation whose target cannot be found (the throw in the source). -/
def resolveRelations (metas : List EMI) (em : EMI) :
    List InvRelation → Except String (List ResolvedRelation)
  | [] => .ok []
  | r :: rest =>
    match findInverseEM metas r with
    | none => .error (inverseErrorMsg em.name r.propertyPath)
    | some im =>
      (resolveRelations metas em rest).map
        (fun tail => ⟨r, im,
          im.relations.find? (fun fr => fr.propertyPath == r.inverseSidePropertyPath)⟩ :: tail)

/-- The inverse-resolution pass over a list of entities, aborting at the
first unresolved relation: the top-level build either returns resolutions
for every relation of every entity or a single error and no partial set. -/
def resolveAllInverse (metas : List EMI) : List EMI → Except String (List (List ResolvedRelation))
  | [] => .ok []
  | em :: rest =>
    match resolveRelations metas em em.relations with
    | .error e => .error e
    | .ok rr => (resolveAllInverse metas rest).map (rr :: ·)

/-- The whole pass as invoked by build: every entity against the full set. -/
def buildInversePass (metas : List EMI) : Except String (List (List ResolvedRelation)) :=
  resolveAllInverse metas metas

theorem resolveRelations_isOk (metas : List EMI) (em : EMI) (rs : List InvRelation) :
    (resolveRelations metas em rs).isOk = true ↔
      ∀ r ∈ rs, ∃ im ∈ metas, inverseMatches r im = true := by
  induction rs with
  | nil => simp [resolveRelations, Except.isOk, Except.toBool]
  | cons r rest ih =>
    rw [resolveRelations]
    match hf : findInverseEM metas r with
    | none =>
      simp only [Except.isOk, Except.toBool]
      constructor
      · intro h
        cases h
      · intro h
        rcases h r (by simp) with ⟨im, him, hm⟩
        have : findInverseEM metas r ≠ none := by
          rw [findInverseEM]
          intro hnone
          rw [List.find?_eq_none] at hnone
          exact (hnone im him) hm
        exact absurd hf this
    | some im =>
      constructor
      · intro h
        intro r2 hr2
        rcases List.mem_cons.mp hr2 with h2 | h2
        · subst h2
          exact ⟨im, List.mem_of_find?_eq_some hf, List.find?_some hf⟩
        · refine (ih.mp ?_) r2 h2
          match hres : resolveRelations metas em rest with
          | .ok _ => simp [Except.isOk, Except.toBool]
          | .error e =>
            rw [hres] at h
            simp [Except.map, Except.isOk, Except.toBool] at h
      · intro h
        have htail := ih.mpr (fun r2 h2 => h r2 (by simp [h2]))
        match hres : resolveRelations metas em rest with
        | .ok t => simp [hres, Except.map, Except.isOk, Except.toBool]
        | .error e => rw [hres] at htail; simp [Except.isOk, Except.toBool] at htail

theorem resolveRelations_error (metas : List EMI) (em : EMI) (rs : List InvRelation)
    (msg : String) (h : resolveRelations metas em rs = .error msg) :
    ∃ r ∈ rs, findInverseEM metas r = none ∧ msg = inverseErrorMsg em.name r.propertyPath := by
  induction rs with
  | nil => simp [resolveRelations] at h
  | cons r rest ih =>
    rw [resolveRelations] at h
    match hf : findInverseEM metas r with
    | none =>
      rw [hf] at h
      cases h
      exact ⟨r, by simp, hf, rfl⟩
    | some im =>
      rw [hf] at h
      match hres : resolveRelations metas em rest with
      | .ok t => rw [hres] at h; simp [Except.map] at h
      | .error e =>
        rw [hres] at h
        simp only [Except.map] at h
        cases h
        rcases ih hres with ⟨r2, h2, h3, h4⟩
        exact ⟨r2, by simp [h2], h3, h4⟩

theorem resolveAllInverse_isOk (metas ems : List EMI) :
    (resolveAllInverse metas ems).isOk = true ↔
      ∀ em ∈ ems, ∀ r ∈ em.relations, ∃ im ∈ metas, inverseMatches r im = true := by
  induction ems with
  | nil => simp [resolveAllInverse, Except.isOk, Except.toBool]
  | cons em rest ih =>
    rw [resolveAllInverse]
    match hres : resolveRelations metas em em.relations with
    | .error e =>
      simp only [Except.isOk, Except.toBool]
      constructor
      · intro h
        cases h
      · intro h
        have : (resolveRelations metas em em.relations).isOk = true :=
          (resolveRelations_isOk metas em em.relations).mpr (h em (by simp))
        rw [hres] at this
        simp [Except.isOk, Except.toBool] at this
    | .ok rr =>
      constructor
      · intro h em2 hem2
        rcases List.mem_cons.mp hem2 with h2 | h2
        · subst h2
          refine (resolveRelations_isOk metas em2 em2.relations).mp ?_
          rw [hres]
          simp [Except.isOk, Except.toBool]
        · refine (ih.mp ?_) em2 h2
          match hres2 : resolveAllInverse metas rest with
          | .ok _ => simp [Except.isOk, Except.toBool]
          | .error e =>
            rw [hres2] at h
            simp [Except.map, Except.isOk, Except.toBool] at h
      · intro h
        have htail := ih.mpr (fun em2 h2 => h em2 (by simp [h2]))
        match hres2 : resolveAllInverse metas rest with
        | .ok t => simp [hres2, Except.map, Except.isOk, Except.toBool]
        | .error e => rw [hres2] at htail; simp [Except.isOk, Except.toBool] at htail

theorem resolveAllInverse_error (metas ems : List EMI) (msg : String)
    (h : resolveAllInverse metas ems = .error msg) :
    ∃ em ∈ ems, ∃ r ∈ em.relations, findInverseEM metas r = none ∧
      msg = inverseErrorMsg em.name r.propertyPath := by
  induction ems with
  | nil => simp [resolveAllInverse] at h
  | cons em rest ih =>
    rw [resolveAllInverse] at h
    match hres : resolveRelations metas em em.relations with
    | .error e =>
      rw [hres] at h
      cases h
      rcases resolveRelations_error metas em em.relations _ hres with ⟨r, h1, h2, h3⟩
      exact ⟨em, by simp, r, h1, h2, h3⟩
    | .ok rr =>
      rw [hres] at h
      match hres2 : resolveAllInverse metas rest with
      | .ok t => rw [hres2] at h; simp [Except.map] at h
      | .error e =>
        rw [hres2] at h
        simp only [Except.map] at h
        cases h
        rcases ih hres2 with ⟨em2, h1, r, h2, h3, h4⟩
        exact ⟨em2, by simp [h1], r, h2, h3, h4⟩

/-- C3: the inverse-resolution pass succeeds exactly when every relation of
every entity finds its target metadata by type identity (or by string name
or given table name for string targets); otherwise the whole pass returns a
single error naming the offending entity and the relation property path,
and no partial result. -/
theorem claim_C3 (metas : List EMI) :
    ((buildInversePass metas).isOk = true ↔
      ∀ em ∈ metas, ∀ r ∈ em.relations, ∃ im ∈ metas, inverseMatches r im = true) ∧
    (∀ msg, buildInversePass metas = .error msg →
      ∃ em ∈ metas, ∃ r ∈ em.relations, findInverseEM metas r = none ∧
        msg = inverseErrorMsg em.name r.propertyPath) := by
  exact ⟨resolveAllInverse_isOk metas metas,
    fun msg h => resolveAllInverse_error metas metas msg h⟩

/-- An entity whose only relation targets a class that is registered. -/
def emiGood : EMI := ⟨"Post", .cls 1, "Post", none, [⟨.cls 2, "author", "posts"⟩]⟩

/-- The relation target entity. -/
def emiAuthor : EMI := ⟨"Author", .cls 2, "Author", none, []⟩

/-- An entity whose only relation targets an unregistered class. -/
def emiBad : EMI := ⟨"Orphan", .cls 3, "Orphan", none, [⟨.cls 99, "ghost", ""⟩]⟩

/-- Witness for C3: resolution succeeds on a resolvable set, and on an
unresolvable set it returns exactly the error naming the offending entity
and property, with no partial result. -/
theorem claim_C3_witness :
    (buildInversePass [emiGood, emiAuthor]).isOk = true ∧
    buildInversePass [emiGood, emiAuthor, emiBad] =
      .error (inverseErrorMsg "Orphan" "ghost") ∧
    (∃ em ∈ [emiGood, emiAuthor, emiBad], ∃ r ∈ em.relations,
      findInverseEM [emiGood, emiAuthor, emiBad] r = none ∧
      inverseErrorMsg "Orphan" "ghost" = inverseErrorMsg em.name r.propertyPath) := by
  refine ⟨(claim_C3 [emiGood, emiAuthor]).1.mpr (by decide), rfl, ?_⟩
  exact (claim_C3 [emiGood, emiAuthor, emiBad]).2 (inverseErrorMsg "Orphan" "ghost") rfl

/-! ### C4: single-table-inheritance column reuse
(EntityMetadataBuilder.computeEntityMetadataStep1, ownColumns) -/

/-- The slice of a column metadata-args record read by the ownColumns
construction. -/
structure ColArgs where
  propertyName : String
deriving DecidableEq, Repr

/-- A built column.  Object identity of the TypeScript ColumnMetadata
instances is modelled by the allocation identifier `uid`: two columns are
the same object exactly when they carry the same uid. -/
structure Col where
  uid : Nat
  propertyName : String
deriving DecidableEq, Repr

/-- Modelled from the spec: construction of a fresh ColumnMetadata record
(the ColumnMetadata constructor is not in the source tree); a new object
identity is allocated. -/
def mkColumn (uid : Nat) (a : ColArgs) : Col :=
  ⟨uid, a.propertyName⟩

/-- The ownColumns construction of computeEntityMetadataStep1 for an
entity-child metadata: every filtered column-args entry is resolved by
looking up the parent metadata column of the same property name (the
non-null assertion of the source is modelled by the Option result); no new
column is allocated. -/
def buildOwnColumnsChild (parentCols : List Col) (argsList : List ColArgs) (fresh : Nat) :
    List (Option Col) × Nat :=
  (argsList.map (fun a => parentCols.find? (fun c => c.propertyName == a.propertyName)), fresh)

/-- The ownColumns construction for a non-child metadata: one freshly
allocated ColumnMetadata per args entry (the nullable-marking and
default-override refinements of the source mutate the fresh column and do
not affect object identity, which is all this model tracks). -/
def buildOwnColumnsRegular (argsList : List ColArgs) (fresh : Nat) :
    List (Option Col) × Nat :=
  (argsList.enum.map (fun p => some (mkColumn (fresh + p.1) p.2)), fresh + argsList.length)

/-- The ownColumns dispatch on table type. -/
def buildOwnColumns (tableType : String) (parentCols : List Col) (argsList : List ColArgs)
    (fresh : Nat) : List (Option Col) × Nat :=
  if tableType = "entity-child" then buildOwnColumnsChild parentCols argsList fresh
  else buildOwnColumnsRegular argsList fresh

/-- C4: for an entity-child metadata, the build allocates no new column
(the allocation counter is unchanged), and every resolved own-column entry
is exactly the find? result on the parent columns for that property; in
particular each resolved column is an element of the parent list itself
(same uid, hence reference-identical in the allocation model), not a copy. -/
theorem claim_C4 (parentCols : List Col) (argsList : List ColArgs) (fresh : Nat) :
    (buildOwnColumns "entity-child" parentCols argsList fresh).2 = fresh ∧
    (buildOwnColumns "entity-child" parentCols argsList fresh).1.length = argsList.length ∧
    (∀ i : Nat, ∀ hi : i < argsList.length,
      ∀ hc : i < (buildOwnColumns "entity-child" parentCols argsList fresh).1.length,
      (buildOwnColumns "entity-child" parentCols argsList fresh).1.get ⟨i, hc⟩ =
        parentCols.find? (fun c => c.propertyName == (argsList.get ⟨i, hi⟩).propertyName) ∧
      ∀ c, (buildOwnColumns "entity-child" parentCols argsList fresh).1.get ⟨i, hc⟩ = some c →
        c ∈ parentCols) := by
  refine ⟨rfl, by simp [buildOwnColumns, buildOwnColumnsChild], ?_⟩
  intro i hi hc
  constructor
  · simp [buildOwnColumns, buildOwnColumnsChild]
  · intro c hcc
    simp [buildOwnColumns, buildOwnColumnsChild] at hcc
    exact List.mem_of_find?_eq_some hcc

/-- Concrete parent columns (with distinct allocation identifiers). -/
def parentIdCol : Col := ⟨10, "id"⟩

/-- A second parent column. -/
def parentTitleCol : Col := ⟨11, "title"⟩

/-- Witness for C4: child own columns over two inherited properties are the
very parent column objects and the counter does not move. -/
theorem claim_C4_witness :
    (buildOwnColumns "entity-child" [parentIdCol, parentTitleCol]
      [⟨"title"⟩, ⟨"id"⟩] 42).2 = 42 ∧
    0 < ([(⟨"title"⟩ : ColArgs), ⟨"id"⟩] : List ColArgs).length ∧
    (buildOwnColumns "entity-child" [parentIdCol, parentTitleCol]
      [⟨"title"⟩, ⟨"id"⟩] 42).1.get ⟨0, by decide⟩ = some parentTitleCol ∧
    parentTitleCol ∈ [parentIdCol, parentTitleCol] := by
  have h := claim_C4 [parentIdCol, parentTitleCol] [⟨"title"⟩, ⟨"id"⟩] 42
  refine ⟨h.1, by decide, ?_, ?_⟩
  · rw [(h.2.2 0 (by decide) (by decide)).1]
    decide
  · exact (h.2.2 0 (by decide) (by decide)).2 parentTitleCol (by decide)

/-! ### C5: discriminator index for single-table inheritance
(EntityMetadataBuilder.createKeysForTableInheritance and the STI filter of
build) -/

/-- The slice of a column read by the inheritance-key pass. -/
structure Col5 where
  databaseName : String
deriving DecidableEq, Repr

/-- User index declarations can give their columns either as a name list or
as a selector function; Array.isArray distinguishes the two. -/
inductive GivenColumnNames where
  | arr (names : List String)
  | fn
deriving DecidableEq, Repr

/-- The slice of IndexMetadata read and produced by the inheritance-key
pass.  Modelled from the spec: the IndexMetadata constructor (not in the
source tree) records the given column names, the resolved columns (carried
here by database name) and the unique flag from its args. -/
structure Idx5 where
  givenColumnNames : Option GivenColumnNames
  columnNames : List String
  isUnique : Bool
deriving DecidableEq, Repr

/-- The slice of EntityMetadata read by the inheritance-key pass. -/
structure EM5 where
  inheritancePattern : Option String
  discriminatorColumn : Option Col5
  indices : List Idx5
deriving DecidableEq, Repr

/-- The check of createKeysForTableInheritance: some index has given column
names that form an array of exactly one name equal to the discriminator
database name (a missing discriminator column fails the comparison, as the
optional chaining of the source yields undefined). -/
def discriminatorAlreadyIndexed (em : EM5) : Bool :=
  em.indices.any (fun ix =>
    match ix.givenColumnNames with
    | some (.arr l) =>
      l.length == 1 &&
        (match em.discriminatorColumn, l with
         | some d, n :: _ => n == d.databaseName
         | _, _ => false)
    | _ => false)

/-- createKeysForTableInheritance: when the discriminator column is not
already covered by such an index, a new non-unique index over exactly the
discriminator column is appended (the pass only runs with a present
discriminator column; the impossible missing case leaves the metadata
unchanged). -/
def createKeysForTableInheritance (em : EM5) : EM5 :=
  if discriminatorAlreadyIndexed em then em
  else
    match em.discriminatorColumn with
    | some d => { em with indices := em.indices ++ [⟨none, [d.databaseName], false⟩] }
    | none => em

/-- The filter-and-apply step of build: every metadata with pattern STI and
a present discriminator column goes through createKeysForTableInheritance. -/
def stiKeysPass (metas : List EM5) : List EM5 :=
  metas.map (fun em =>
    if em.inheritancePattern == some "STI" && em.discriminatorColumn.isSome then
      createKeysForTableInheritance em
    else em)

/-- C5: after the pass, every STI metadata with a discriminator column
either already had a user index whose given column names are exactly the
discriminator database name (then nothing is added), or now carries an
additional non-unique index over exactly that column. -/
theorem claim_C5 (metas : List EM5) (i : Nat) (hi : i < metas.length) (d : Col5)
    (hSTI : (metas.get ⟨i, hi⟩).inheritancePattern = some "STI")
    (hd : (metas.get ⟨i, hi⟩).discriminatorColumn = some d) :
    ∃ hi2 : i < (stiKeysPass metas).length,
      (discriminatorAlreadyIndexed (metas.get ⟨i, hi⟩) = true →
        (stiKeysPass metas).get ⟨i, hi2⟩ = metas.get ⟨i, hi⟩) ∧
      (discriminatorAlreadyIndexed (metas.get ⟨i, hi⟩) = false →
        ((stiKeysPass metas).get ⟨i, hi2⟩).indices =
          (metas.get ⟨i, hi⟩).indices ++ [⟨none, [d.databaseName], false⟩] ∧
        ∃ ix ∈ ((stiKeysPass metas).get ⟨i, hi2⟩).indices,
          ix.isUnique = false ∧ ix.columnNames = [d.databaseName]) := by
  have hlen : (stiKeysPass metas).length = metas.length := by
    simp [stiKeysPass]
  simp only [List.get_eq_getElem] at hSTI hd
  refine ⟨by omega, ?_, ?_⟩
  · intro hidx
    simp only [List.get_eq_getElem] at hidx ⊢
    simp only [stiKeysPass, List.getElem_map]
    rw [if_pos (by simp [hSTI, hd]), createKeysForTableInheritance, if_pos hidx]
  · intro hidx
    simp only [List.get_eq_getElem] at hidx
    have hget : (stiKeysPass metas).get ⟨i, by omega⟩ =
        { metas[i] with
          indices := metas[i].indices ++ [⟨none, [d.databaseName], false⟩] } := by
      simp only [List.get_eq_getElem, stiKeysPass, List.getElem_map]
      rw [if_pos (by simp [hSTI, hd]), createKeysForTableInheritance, if_neg (by simp [hidx])]
      rw [hd]
    simp only [List.get_eq_getElem] at hget ⊢
    rw [hget]
    exact ⟨rfl, ⟨none, [d.databaseName], false⟩, by simp, rfl, rfl⟩

/-- An STI root with a discriminator column and no covering user index. -/
def em5Plain : EM5 := ⟨some "STI", some ⟨"type"⟩, [⟨some (.arr ["other"]), ["other"], true⟩]⟩

/-- An STI root whose discriminator column is covered by a user index. -/
def em5Covered : EM5 := ⟨some "STI", some ⟨"type"⟩, [⟨some (.arr ["type"]), ["type"], true⟩]⟩

/-- Witness for C5: the uncovered root gains the non-unique discriminator
index, the covered root is unchanged. -/
theorem claim_C5_witness :
    em5Plain.inheritancePattern = some "STI" ∧
    em5Plain.discriminatorColumn = some ⟨"type"⟩ ∧
    ((stiKeysPass [em5Plain, em5Covered]).get ⟨0, by decide⟩).indices =
      em5Plain.indices ++ [⟨none, ["type"], false⟩] ∧
    (stiKeysPass [em5Plain, em5Covered]).get ⟨1, by decide⟩ = em5Covered := by
  have h0 := claim_C5 [em5Plain, em5Covered] 0 (by decide) ⟨"type"⟩ rfl rfl
  have h1 := claim_C5 [em5Plain, em5Covered] 1 (by decide) ⟨"type"⟩ rfl rfl
  rcases h0 with ⟨hlen0, _, hadd⟩
  rcases h1 with ⟨hlen1, hkeep, _⟩
  exact ⟨rfl, rfl, (hadd (by decide)).1, hkeep (by decide)⟩

/-! ### C6: explicit foreign-key resolution
(EntityMetadataBuilder.createForeignKeys) -/

/-- The target of an explicit foreign-key declaration: a class, a string
name, or an entity schema (whose options carry a name and possibly a target
class). -/
inductive FKType where
  | cls (id : Nat)
  | str (s : String)
  | schema (name : String) (target : Option Nat)
deriving DecidableEq, Repr

/-- The slice of a column read by foreign-key resolution. -/
structure Col6 where
  propertyName : String
  databaseName : String
deriving DecidableEq, Repr

/-- The slice of EntityMetadata read by foreign-key resolution. -/
structure EM6 where
  name : String
  targetName : String
  givenTableName : Option String
  target : EMTarget
  columns : List Col6
  primaryColumns : List Col6
deriving DecidableEq, Repr

/-- One explicit foreign-key declaration (a metadata-args record).  The
inverse-side accessor may be a property name or a selector function; the
model carries the resolved name. -/
structure FKArgs where
  type : FKType
  name : Option String
  columnNames : Option (List String)
  referencedColumnNames : Option (List String)
  propertyName : Option String
  inverseSide : Option String
deriving DecidableEq, Repr

/-- The produced foreign key (modelled from the spec: the
ForeignKeyMetadata constructor records the two column sets). -/
structure FKMeta where
  columns : List Col6
  referencedColumns : List Col6
deriving DecidableEq, Repr

/-- The referenced-entity lookup: string targets match the target name or
the given table name, schema targets match the schema name or its target
class, class targets match by identity. -/
def fkTypeMatches (m : EM6) (t : FKType) : Bool :=
  match t with
  | .str str => m.targetName == str || m.givenTableName == some str
  | .schema nm tgt =>
    m.target == .str nm || (match tgt with | some id => m.target == .cls id | none => false)
  | .cls id => m.target == .cls id

/-- The error for an unresolvable referenced entity, naming the declaring
entity and, when present, the property. -/
def fkEntityNotFoundMsg (emName : String) (propertyName : Option String) : String :=
  "Entity metadata for " ++ emName ++
    (match propertyName with | some p => "#" ++ p | none => "") ++
    " was not found. Check if you specified a correct entity object and if it\x27s connected in the connection options."

/-- The error for a column name matching neither a property name nor a
database name, naming the entity and the column. -/
def missingColMsg (args : FKArgs) (entityName cn : String) : String :=
  "Foreign key constraint " ++
    (match args.name with | some n => "\"" ++ n ++ "\" " | none => "") ++
    "contains column that is missing in the entity (" ++ entityName ++ "): " ++ cn

/-- The effective own column names: the declared ones plus the property
name when the declaration is property-based. -/
def effColumnNames (args : FKArgs) : List String :=
  (args.columnNames.getD []) ++ (match args.propertyName with | some p => [p] | none => [])

/-- The effective referenced column names: the declared ones plus the
resolved inverse-side name when the declaration is property-based and has
an inverse side. -/
def effRefColumnNames (args : FKArgs) : List String :=
  (args.referencedColumnNames.getD []) ++
    (match args.propertyName, args.inverseSide with
     | some _, some inv => [inv]
     | _, _ => [])

/-- columnNameToColumn without the throw: a column is found by property
name or database name. -/
def colLookup (em : EM6) (cn : String) : Option Col6 :=
  em.columns.find? (fun c => c.propertyName == cn || c.databaseName == cn)

/-- Resolution of a name list against an entity, aborting with the
missing-column error at the first unresolvable name (the throw of
columnNameToColumn). -/
def resolveFKColumns (args : FKArgs) (em : EM6) : List String → Except String (List Col6)
  | [] => .ok []
  | cn :: rest =>
    match colLookup em cn with
    | some c => (resolveFKColumns args em rest).map (c :: ·)
    | none => .error (missingColMsg args em.targetName cn)

/-- Processing of one explicit foreign-key declaration: find the referenced
entity (error when absent), default the referenced columns to the target
primary key when no referenced names are given, then resolve the own and
referenced column names in that order. -/
def createForeignKey (em : EM6) (metas : List EM6) (args : FKArgs) : Except String FKMeta :=
  match metas.find? (fun m => fkTypeMatches m args.type) with
  | none => .error (fkEntityNotFoundMsg em.name args.propertyName)
  | some rem =>
    let refDefault := if (effRefColumnNames args).isEmpty then rem.primaryColumns else []
    match resolveFKColumns args em (effColumnNames args) with
    | .error e => .error e
    | .ok cols =>
      match resolveFKColumns args rem (effRefColumnNames args) with
      | .error e => .error e
      | .ok refCols => .ok ⟨cols, refDefault ++ refCols⟩

/-- The loop over all explicit foreign-key declarations of one entity,
aborting at the first error. -/
def createForeignKeys (em : EM6) (metas : List EM6) : List FKArgs → Except String (List FKMeta)
  | [] => .ok []
  | a :: rest =>
    match createForeignKey em metas a with
    | .error e => .error e
    | .ok fk => (createForeignKeys em metas rest).map (fk :: ·)

theorem resolveFKColumns_error (args : FKArgs) (em : EM6) (names : List String)
    (msg : String) (h : resolveFKColumns args em names = .error msg) :
    ∃ cn ∈ names, colLookup em cn = none ∧ msg = missingColMsg args em.targetName cn := by
  induction names with
  | nil => simp [resolveFKColumns] at h
  | cons cn rest ih =>
    rw [resolveFKColumns] at h
    match hl : colLookup em cn with
    | some c =>
      rw [hl] at h
      match hres : resolveFKColumns args em rest with
      | .ok t => rw [hres] at h; simp [Except.map] at h
      | .error e =>
        rw [hres] at h
        simp only [Except.map] at h
        cases h
        rcases ih hres with ⟨cn2, h1, h2, h3⟩
        exact ⟨cn2, by simp [h1], h2, h3⟩
    | none =>
      rw [hl] at h
      cases h
      exact ⟨cn, by simp, hl, rfl⟩

/-- C6: an explicit foreign-key declaration fails with the entity-naming
error when the referenced entity cannot be found; when it is found and no
referenced column names are given the produced foreign key references the
target primary-key columns; every error is either the entity-not-found
message or a missing-column message naming the owning or the referenced
entity and the column; and the declaration loop propagates the error of
some declaration instead of producing foreign keys. -/
theorem claim_C6 (em : EM6) (metas : List EM6) (args : FKArgs) :
    (metas.find? (fun m => fkTypeMatches m args.type) = none →
      createForeignKey em metas args = .error (fkEntityNotFoundMsg em.name args.propertyName)) ∧
    (∀ rem, metas.find? (fun m => fkTypeMatches m args.type) = some rem →
      effRefColumnNames args = [] →
      ∀ fk, createForeignKey em metas args = .ok fk →
        fk.referencedColumns = rem.primaryColumns) ∧
    (∀ msg, createForeignKey em metas args = .error msg →
      msg = fkEntityNotFoundMsg em.name args.propertyName ∨
      (∃ cn ∈ effColumnNames args, colLookup em cn = none ∧
        msg = missingColMsg args em.targetName cn) ∨
      (∃ rem, metas.find? (fun m => fkTypeMatches m args.type) = some rem ∧
        ∃ cn ∈ effRefColumnNames args, colLookup rem cn = none ∧
          msg = missingColMsg args rem.targetName cn)) ∧
    (∀ argsList : List FKArgs, ∀ msg,
      createForeignKeys em metas argsList = .error msg →
      ∃ a ∈ argsList, createForeignKey em metas a = .error msg) := by
  refine ⟨?_, ?_, ?_, ?_⟩
  · intro hnone
    rw [createForeignKey, hnone]
  · intro rem hfind href fk hok
    rw [createForeignKey, hfind] at hok
    dsimp only at hok
    match hres : resolveFKColumns args em (effColumnNames args) with
    | .error e => rw [hres] at hok; dsimp only at hok; cases hok
    | .ok cols =>
      rw [hres] at hok
      dsimp only at hok
      rw [href] at hok
      rw [show resolveFKColumns args rem [] = .ok [] from rfl] at hok
      dsimp only at hok
      simp only [List.isEmpty_nil, if_true, List.append_nil, Except.ok.injEq] at hok
      rw [← hok]
  · intro msg herr
    rw [createForeignKey] at herr
    match hfind : metas.find? (fun m => fkTypeMatches m args.type) with
    | none =>
      rw [hfind] at herr
      cases herr
      exact Or.inl rfl
    | some rem =>
      rw [hfind] at herr
      dsimp only at herr
      match hres : resolveFKColumns args em (effColumnNames args) with
      | .error e =>
        rw [hres] at herr
        dsimp only at herr
        cases herr
        rcases resolveFKColumns_error args em _ _ hres with ⟨cn, h1, h2, h3⟩
        exact Or.inr (Or.inl ⟨cn, h1, h2, h3⟩)
      | .ok cols =>
        rw [hres] at herr
        dsimp only at herr
        match hres2 : resolveFKColumns args rem (effRefColumnNames args) with
        | .error e =>
          rw [hres2] at herr
          dsimp only at herr
          cases herr
          rcases resolveFKColumns_error args rem _ _ hres2 with ⟨cn, h1, h2, h3⟩
          exact Or.inr (Or.inr ⟨rem, rfl, cn, h1, h2, h3⟩)
        | .ok refCols => rw [hres2] at herr; dsimp only at herr; cases herr
  · intro argsList
    induction argsList with
    | nil => intro msg h; simp [createForeignKeys] at h
    | cons a rest ih =>
      intro msg h
      rw [createForeignKeys] at h
      match hone : createForeignKey em metas a with
      | .error e =>
        rw [hone] at h
        cases h
        exact ⟨a, by simp, hone⟩
      | .ok fk =>
        rw [hone] at h
        match hres : createForeignKeys em metas rest with
        | .ok t => rw [hres] at h; simp [Except.map] at h
        | .error e =>
          rw [hres] at h
          simp only [Except.map] at h
          cases h
          rcases ih _ hres with ⟨a2, h1, h2⟩
          exact ⟨a2, by simp [h1], h2⟩

/-- The declaring entity of the witness, with one column. -/
def emP : EM6 := ⟨"P", "P", none, .cls 1, [⟨"qid", "q_id"⟩], [⟨"qid", "q_id"⟩]⟩

/-- The referenced entity of the witness, with a primary key. -/
def emQ : EM6 := ⟨"Q", "Q", none, .cls 2, [⟨"id", "id"⟩], [⟨"id", "id"⟩]⟩

/-- A declaration with no referenced column names. -/
def fkArgsDefault : FKArgs := ⟨.cls 2, none, some ["qid"], none, none, none⟩

/-- A declaration referencing an unregistered class. -/
def fkArgsBadEntity : FKArgs := ⟨.cls 99, none, some ["qid"], none, none, none⟩

/-- A declaration naming a column that does not exist. -/
def fkArgsBadColumn : FKArgs := ⟨.cls 2, none, some ["missing"], none, none, none⟩

/-- Witness for C6: the default to the target primary key, the
entity-not-found error and the missing-column error at concrete inputs. -/
theorem claim_C6_witness :
    (∀ fk, createForeignKey emP [emP, emQ] fkArgsDefault = .ok fk →
      fk.referencedColumns = emQ.primaryColumns) ∧
    createForeignKey emP [emP, emQ] fkArgsDefault =
      .ok ⟨[⟨"qid", "q_id"⟩], [⟨"id", "id"⟩]⟩ ∧
    createForeignKey emP [emP, emQ] fkArgsBadEntity =
      .error (fkEntityNotFoundMsg "P" none) ∧
    createForeignKey emP [emP, emQ] fkArgsBadColumn =
      .error (missingColMsg fkArgsBadColumn "P" "missing") := by
  have h := claim_C6 emP [emP, emQ] fkArgsDefault
  have hbad := claim_C6 emP [emP, emQ] fkArgsBadEntity
  refine ⟨h.2.1 emQ (by decide) rfl, rfl, ?_, rfl⟩
  exact hbad.1 (by decide)

end TypeormSpec
